import Mathlib

/-!
Verification development for the PolicyNavigator retrieval/grounding core.

The development shallowly embeds the core components of the system:

* the character-level chunker (`src/rag/preprocessors/chunker.py`:
  `chunk_text`, `_split_long_unit`, `_hard_split`),
* the vector-store ranking stages (`src/rag/vectorstore/vector_db.py`:
  the raw argsort candidate ranking, the metadata dedupe, `mmr_select`,
  `add_texts`),
* the grounding gate and answer assembly (`src/main.py`:
  `_confidence_label_from_score`, `_detect_hallucination`,
  `answer_question`).

Modelling conventions:

* Python floats are modelled as exact rationals (`ℚ`); every comparison in
  the embedded code is a comparison of decimal constants, so no rounding
  behaviour is relevant to the verified properties.  Rational constants are
  written with `mkRat` so that every definition evaluates by kernel
  reduction.
* Python strings are modelled as `List Char` where character-level slicing
  matters (the chunker); `pyStrip`/`splitOnSep` mirror `str.strip()` and
  `str.split(sep)` for non-empty separators.
* Cosine similarities involve square roots, which have no exact rational
  representation; the ranking stages are therefore embedded as functions of
  the similarity values they receive (the similarity vector, and for MMR the
  doc-doc similarity matrix), exactly as the Python loop consumes them.
  None of the verified claims depends on the numeric values produced by the
  cosine computation itself.
* Recursions that walk a list by dropping a computed number of elements are
  written with an explicit fuel argument initialised to the input length
  (each step consumes at least one element, so the fuel is sufficient; the
  sufficiency hypotheses appear in the lemmas that need them).
-/

/-! ## Python string primitives -/

abbrev Chars := List Char

/-- Python `str.isspace` characters (space, tab, newline, carriage return,
vertical tab, form feed), as used by `str.strip()`. -/
def pyIsSpace (c : Char) : Bool :=
  c = ' ' || c = '\t' || c = '\n' || c = '\r' || c = '\x0b' || c = '\x0c'

/-- Python `s.strip()`: drop whitespace from both ends. -/
def pyStrip (s : Chars) : Chars :=
  ((s.dropWhile pyIsSpace).reverse.dropWhile pyIsSpace).reverse

/-- `l[-n:]` in Python (for `n ≥ 1`): the last `n` elements. -/
def takeRightN (n : Nat) (l : Chars) : Chars := l.drop (l.length - n)

/-- Worker for `splitOnSep`, with fuel (the fuel is initialised to the length
of the input, which suffices because every step consumes at least one
character). -/
def splitOnSepGo (s0 : Char) (srest : Chars) : Nat → Chars → List Chars
  | 0, s => [s]
  | _, [] => [[]]
  | fuel + 1, c :: rest =>
    if c = s0 ∧ srest.isPrefixOf rest then
      [] :: splitOnSepGo s0 srest fuel (rest.drop srest.length)
    else
      match splitOnSepGo s0 srest fuel rest with
      | [] => [[c]]
      | p :: ps => (c :: p) :: ps

/-- Python `s.split(sep)` for the non-empty separator `s0 :: srest`:
split on every non-overlapping occurrence, scanning left to right. -/
def splitOnSep (s0 : Char) (srest : Chars) (s : Chars) : List Chars :=
  splitOnSepGo s0 srest s.length s

/-! ## The chunker (`src/rag/preprocessors/chunker.py`) -/

/-- `[p.strip() for p in u.split(sep) if p.strip()]`. -/
def cleanParts (s0 : Char) (srest : Chars) (u : Chars) : List Chars :=
  ((splitOnSep s0 srest u).map pyStrip).filter (fun p => p ≠ [])

/-- Worker for `_hard_split`, with fuel: emit `t[i : i + cs].strip()` for
`i = 0, cs, 2·cs, …`, skipping pieces that strip to empty. -/
def hardSplitGo (cs : Nat) : Nat → Chars → List Chars
  | 0, _ => []
  | _, [] => []
  | fuel + 1, l =>
    (if pyStrip (l.take cs) = [] then [] else [pyStrip (l.take cs)]) ++
      hardSplitGo cs fuel (l.drop cs)

/-- `_hard_split(text, chunk_size)`: strip, then cut into windows of
`chunk_size` characters, stripping each window and dropping empty ones. -/
def hard_split (text : Chars) (cs : Nat) : List Chars :=
  hardSplitGo cs (pyStrip text).length (pyStrip text)

/-- The greedy packing loop inside `_split_long_unit`: pack the (already
stripped, non-empty) `parts` into buffers of at most `cs` characters,
re-inserting the separator between parts packed together; a single part
longer than `cs` is hard-split. -/
def packPartsGo (cs : Nat) (sep : Chars) : List Chars → List Chars → Chars → List Chars
  | [], out, buf => out ++ (if buf = [] then [] else [buf])
  | p :: rest, out, buf =>
    if (if buf = [] then p else pyStrip (buf ++ sep ++ p)).length ≤ cs then
      packPartsGo cs sep rest out (if buf = [] then p else pyStrip (buf ++ sep ++ p))
    else
      if cs < p.length then
        packPartsGo cs sep rest
          ((out ++ (if buf = [] then [] else [buf])) ++ hard_split p cs) []
      else
        packPartsGo cs sep rest (out ++ (if buf = [] then [] else [buf])) p

/-- The separator-trying loop of `_split_long_unit`: for each separator in
order, split and repack; accept the result only if it is non-empty and all
its pieces fit in `cs`; otherwise fall through, ending in `_hard_split`. -/
def splitLongTry (cs : Nat) (u : Chars) : List Chars → List Chars
  | [] => hard_split u cs
  | sep :: more =>
    match sep with
    | [] => splitLongTry cs u more
    | s0 :: srest =>
      if (cleanParts s0 srest u).length ≤ 1 then splitLongTry cs u more
      else
        if packPartsGo cs (s0 :: srest) (cleanParts s0 srest u) [] [] ≠ [] ∧
            (packPartsGo cs (s0 :: srest) (cleanParts s0 srest u) [] []).all
              (fun x => x.length ≤ cs) then
          packPartsGo cs (s0 :: srest) (cleanParts s0 srest u) [] []
        else splitLongTry cs u more

/-- The finer separators `[". ", "; ", ", ", " "]` handed to
`_split_long_unit` (i.e. `separators[2:]` of the default list). -/
def fineSeps : List Chars := [['.', ' '], [';', ' '], [',', ' '], [' ']]

/-- `_split_long_unit(unit, chunk_size, separators)`. -/
def split_long_unit (unit : Chars) (cs : Nat) (seps : List Chars) : List Chars :=
  if (pyStrip unit).length ≤ cs then [pyStrip unit]
  else splitLongTry cs (pyStrip unit) seps

/-- `flush_buffer()`: append `buf.strip()` to the chunk list when non-empty. -/
def flushAppend (chunks : List Chars) (buf : Chars) : List Chars :=
  chunks ++ (if pyStrip buf = [] then [] else [pyStrip buf])

/-- Step 2 of `chunk_text`: greedily pack units into chunks of at most
`chunk_size` characters, joining packed units with a newline; units longer
than `chunk_size` are sent to `_split_long_unit`. -/
def packUnitsGo (cs : Nat) : List Chars → List Chars → Chars → List Chars
  | [], chunks, buf => flushAppend chunks buf
  | u :: rest, chunks, buf =>
    if pyStrip u = [] then packUnitsGo cs rest chunks buf
    else if buf.length + u.length + 1 ≤ cs then
      packUnitsGo cs rest chunks
        (if buf = [] then pyStrip u else pyStrip (buf ++ '\n' :: u))
    else
      if cs < u.length then
        packUnitsGo cs rest (flushAppend chunks buf ++ split_long_unit u cs fineSeps) []
      else
        packUnitsGo cs rest (flushAppend chunks buf) (pyStrip u)

/-- Step 1 of `chunk_text` for one separator: keep units of at most
`chunk_size` characters, split longer ones (the `p + sep.strip()` re-append
in the source is a no-op for the two step-1 separators `"\n\n"` and `"\n"`,
whose `strip()` is empty). -/
def stepOneApply (cs : Nat) (s0 : Char) (srest : Chars) (units : List Chars) : List Chars :=
  (units.map (fun u => if u.length ≤ cs then [u] else cleanParts s0 srest u)).flatten

/-- Step 1 of `chunk_text`: split on `"\n\n"` and then `"\n"`
(`separators[:2]` of the default separator list). -/
def stepOne (cs : Nat) (t : Chars) : List Chars :=
  stepOneApply cs '\n' [] (stepOneApply cs '\n' ['\n'] [t])

/-- The chunk list before the overlap pass (steps 1 and 2 of `chunk_text`):
the core content of the emitted chunks. -/
def coreChunks (text : Chars) (cs : Nat) : List Chars :=
  packUnitsGo cs (stepOne cs (pyStrip text)) [] []

/-- `prev[-chunk_overlap:] if len(prev) > chunk_overlap else prev`: the
characters of the previous chunk that step 3 prefixes onto the next chunk. -/
def effectiveOverlapPfx (ov : Nat) (prev : Chars) : Chars :=
  if ov < prev.length then takeRightN ov prev else prev

/-- Step 3 of `chunk_text`: prefix each chunk (except the first) with the
trailing `chunk_overlap` characters of its predecessor, truncating the
merged chunk to its last `chunk_size + chunk_overlap` characters if
necessary. -/
def addOverlapGo (cs ov : Nat) : List Chars → List Chars → Chars → List Chars
  | [], acc, _ => acc
  | c :: rest, acc, prev =>
    if prev = [] then addOverlapGo cs ov rest (acc ++ [c]) c
    else
      addOverlapGo cs ov rest
        (acc ++
          [if cs + ov < (pyStrip (effectiveOverlapPfx ov prev ++ '\n' :: c)).length then
              takeRightN (cs + ov) (pyStrip (effectiveOverlapPfx ov prev ++ '\n' :: c))
            else pyStrip (effectiveOverlapPfx ov prev ++ '\n' :: c)]) c

/-- `chunk_text(text, chunk_size, chunk_overlap)` with the default
separator list. -/
def chunk_text (text : Chars) (cs ov : Nat) : List Chars :=
  if pyStrip text = [] then []
  else
    if ov = 0 ∨ (coreChunks text cs).length ≤ 1 then coreChunks text cs
    else addOverlapGo cs ov (coreChunks text cs) [] []

example : chunk_text "ab\n\nc".data 2 2 = [['a', 'b'], ['a', 'b', '\n', 'c']] := by decide

example : chunk_text "ab\n\ncd".data 2 0 = [['a', 'b'], ['c', 'd']] := by decide

example : coreChunks "ab\n\nc".data 2 = [['a', 'b'], ['c']] := by decide

example : chunk_text "hello world".data 1100 180 = ["hello world".data] := by decide

example : chunk_text "ab cd".data 2 0 = [['a', 'b'], ['c', 'd']] := by decide

example : chunk_text "   ".data 5 1 = [] := by decide

/-! ## Grounding gate (`src/main.py`) -/

/-- Python `max(l)` for a non-empty list (the `[]` case is unreachable in
the embedded code, which guards every call). -/
def pyMax (l : List ℚ) : ℚ :=
  match l with
  | [] => 0
  | x :: xs => xs.foldl max x

/-- `_confidence_label_from_score(score)`: `"high"` for `score ≥ 0.75`,
`"medium"` for `score ≥ 0.5`, else `"low"`. -/
def confidence_label_from_score (score : ℚ) : String :=
  if mkRat 3 4 ≤ score then "high"
  else if mkRat 1 2 ≤ score then "medium"
  else "low"

/-- `_detect_hallucination(similarities, threshold)`: returns
`(hallucination_flag, risk_label, max_similarity)`. -/
def detect_hallucination (similarities : List ℚ) (threshold : ℚ) :
    Bool × String × ℚ :=
  match similarities with
  | [] => (true, "high", 0)
  | _ =>
    if pyMax similarities < threshold then (true, "high", pyMax similarities)
    else if pyMax similarities < mkRat 7 10 then (false, "medium", pyMax similarities)
    else (false, "low", pyMax similarities)

/-! ## Answer assembly (`answer_question` in `src/main.py`)

The function is embedded from the point where the retrieval outcome is
fixed: `docs` is the list returned by `similarity_search` (empty on an
empty index, an empty candidate list, or a search failure — the `except`
handler sets `docs = []`).  The external generation call for the final
answer is abstracted by the `llmAnswer` argument; the second component of
the result records whether that call is made (the optional query-rewrite
call is a separate, earlier interaction and is not answer synthesis).
`used_query` and `latency_ms` are wall-clock/IO artefacts and are not
modelled. -/

structure RetrievedDoc where
  text : String
  source : String
  chunkId : String
  page : Option Nat
  score : ℚ
deriving DecidableEq

structure Citation where
  source : String
  chunkId : String
  page : Option Nat
  rank : Nat
  similarity : ℚ
  text : String
deriving DecidableEq

structure AnswerEnvelope where
  answer : String
  citations : List Citation
  confidenceLabel : String
  confidenceScore : ℚ
  hallucinationFlag : Bool
  hallucinationRisk : String
deriving DecidableEq

/-- The citation list built from the retrieved docs (rank is 1-based). -/
def mkCitations (docs : List RetrievedDoc) : List Citation :=
  docs.enum.map (fun d => ⟨d.2.source, d.2.chunkId, d.2.page, d.1 + 1, d.2.score, d.2.text⟩)

/-- `answer_question` from the retrieval outcome on: the empty-question and
empty-retrieval early returns, the grounding gate, the abstain guardrail,
and the final generation call.  Returns the envelope together with a flag
recording whether the generation service was invoked for answer synthesis. -/
def answer_question (question : String) (docs : List RetrievedDoc)
    (abstainThreshold : ℚ) (llmAnswer : String) : AnswerEnvelope × Bool :=
  if pyStrip question.data = [] then
    (⟨"Please enter a question.", [], "low", 0, false, "high"⟩, false)
  else if docs = [] then
    (⟨"I couldn\x27t find relevant information for this question in the indexed documents.",
      [], "low", mkRat 1 10, true, "high"⟩, false)
  else
    if (detect_hallucination (docs.map (fun d => d.score)) (mkRat 1 2)).2.2 <
        abstainThreshold then
      (⟨"Not covered in the provided policy excerpts.", mkCitations docs, "low",
        (detect_hallucination (docs.map (fun d => d.score)) (mkRat 1 2)).2.2,
        true, "high"⟩, false)
    else
      (⟨llmAnswer, mkCitations docs,
        confidence_label_from_score
          (detect_hallucination (docs.map (fun d => d.score)) (mkRat 1 2)).2.2,
        (detect_hallucination (docs.map (fun d => d.score)) (mkRat 1 2)).2.2,
        (detect_hallucination (docs.map (fun d => d.score)) (mkRat 1 2)).1,
        (detect_hallucination (docs.map (fun d => d.score)) (mkRat 1 2)).2.1⟩, true)

/-! ## Vector store stages (`src/rag/vectorstore/vector_db.py`) -/

/-- The metadata dict attached to an index entry (`source`, `chunk_id`,
`page`; absent keys are `none`). -/
structure ChunkMeta where
  source : Option String
  chunkId : Option String
  page : Option Nat
deriving DecidableEq

/-- The dedupe key of candidate index `idx`:
`(str(meta.get("source", "unknown")), str(meta.get("chunk_id", idx)))`,
with `meta = {}` when `idx` is out of range of the metadata list. -/
def dedupeKey (metas : List ChunkMeta) (idx : Nat) : String × String :=
  ((metas.getD idx ⟨none, none, none⟩).source.getD "unknown",
   (metas.getD idx ⟨none, none, none⟩).chunkId.getD (toString idx))

/-- The dedupe loop of `similarity_search`: keep the first candidate for
each key, preserving order (`seen` is the set of keys already kept). -/
def dedupeGo (metas : List ChunkMeta) : List Nat → List (String × String) → List Nat
  | [], _ => []
  | idx :: rest, seen =>
    if dedupeKey metas idx ∈ seen then dedupeGo metas rest seen
    else idx :: dedupeGo metas rest (dedupeKey metas idx :: seen)

/-- The dedupe stage of `similarity_search` (lines 185–199). -/
def dedupe (metas : List ChunkMeta) (raw : List Nat) : List Nat :=
  dedupeGo metas raw []

/-- The total order on candidate indices realised by a stable ascending
argsort of the similarity vector: by similarity, ties by index. -/
abbrev argsortRel (sims : List ℚ) (i j : Nat) : Prop :=
  sims.getD i 0 < sims.getD j 0 ∨ (sims.getD i 0 = sims.getD j 0 ∧ i ≤ j)

/-- `sims_all.argsort()` modelled as a stable ascending argsort (NumPy's
default introsort leaves tie order unspecified; the stable reading is the
one most favourable to the specification's tie-break sentence). -/
def argsortStable (sims : List ℚ) : List Nat :=
  List.insertionSort (argsortRel sims) (List.range sims.length)

/-- The raw candidate ranking of `similarity_search` (lines 178–183):
`sims_all.argsort()[::-1][:raw_n]` with
`raw_n = min(max(top_k_raw, k), len(self.texts))`. -/
def rawCandidateRanking (sims : List ℚ) (k topKRaw : Nat) : List Nat :=
  ((argsortStable sims).reverse).take (min (max topKRaw k) sims.length)

/-! ## MMR selection (`mmr_select` in `src/rag/vectorstore/vector_db.py`)

The candidate-pool size is `M = doc_sims_to_query.length` (equal to the
number of rows of `doc_embs` for every call in the source).  The doc-doc
cosine matrix, precomputed from `doc_embs` in the source, is passed as the
function `dd`; the selection loop reads similarities only through
`doc_sims_to_query` and this matrix. -/

/-- `np.argmax` worker: first index of the maximum. -/
def argmaxAux : List ℚ → Nat → Nat → ℚ → Nat
  | [], _, bi, _ => bi
  | x :: rest, i, bi, bv =>
    if bv < x then argmaxAux rest (i + 1) i x else argmaxAux rest (i + 1) bi bv

/-- `int(np.argmax(l))`: the first index attaining the maximum (0 on the
empty list, unreachable in the embedded code). -/
def npArgmax (l : List ℚ) : Nat :=
  match l with
  | [] => 0
  | x :: rest => argmaxAux rest 1 0 x

/-- `max(doc_doc_sims[idx, s] for s in selected)` (`selected` non-empty at
every call site). -/
def maxSimToSelected (dd : Nat → Nat → ℚ) (idx : Nat) : List Nat → ℚ
  | [] => 0
  | s :: rest => rest.foldl (fun acc t => max acc (dd idx t)) (dd idx s)

/-- The MMR objective for candidate `idx`:
`lambda_mult * sim_to_query - (1 - lambda_mult) * max_sim_to_selected`. -/
def mmrScore (simsQ : List ℚ) (dd : Nat → Nat → ℚ) (lam : ℚ)
    (selected : List Nat) (idx : Nat) : ℚ :=
  lam * simsQ.getD idx 0 - (1 - lam) * maxSimToSelected dd idx selected

/-- The inner candidate scan: starting from `best_score = -1e9`,
`best_idx = None`, keep the first strictly improving candidate. -/
def pickBest (simsQ : List ℚ) (dd : Nat → Nat → ℚ) (lam : ℚ)
    (selected : List Nat) (candidates : List Nat) : Option Nat :=
  (candidates.foldl
    (fun acc idx =>
      if acc.1 < mmrScore simsQ dd lam selected idx then
        (mmrScore simsQ dd lam selected idx, some idx)
      else acc)
    (-(1000000000 : ℚ), (none : Option Nat))).2

/-- The `while` loop of `mmr_select`, with fuel (initialised to the pool
size, which suffices because every iteration removes one candidate).  Note
the loop guard compares against the length of the *shrinking* candidate
list, exactly as in the source. -/
def mmrLoop (simsQ : List ℚ) (dd : Nat → Nat → ℚ) (lam : ℚ) (k : Nat) :
    Nat → List Nat → List Nat → List Nat
  | 0, selected, _ => selected
  | fuel + 1, selected, candidates =>
    if selected.length < min k candidates.length then
      match selected with
      | [] =>
        mmrLoop simsQ dd lam k fuel [npArgmax simsQ] (candidates.erase (npArgmax simsQ))
      | _ =>
        match pickBest simsQ dd lam selected candidates with
        | none => selected
        | some best =>
          mmrLoop simsQ dd lam k fuel (selected ++ [best]) (candidates.erase best)
    else selected

/-- `mmr_select(doc_embs, query_emb, doc_sims_to_query, k, lambda_mult)`. -/
def mmr_select (simsQ : List ℚ) (dd : Nat → Nat → ℚ) (k : Nat) (lam : ℚ) :
    List Nat :=
  if k = 0 ∨ simsQ.length = 0 then []
  else mmrLoop simsQ dd lam k simsQ.length [] (List.range simsQ.length)

/-! ## `add_texts` (`src/rag/vectorstore/vector_db.py`, lines 122–147)

The embedder is abstracted as the function `embed` producing the new
vectors.  `np.concatenate` raises a `ValueError` when the row
dimensionalities of the two stacked arrays differ; array dimensionality is
the (uniform) row length, modelled by the head row's length. -/

structure VectorDBState where
  texts : List String
  metadatas : List ChunkMeta
  embeddings : Option (List (List ℚ))
deriving DecidableEq

/-- The row dimensionality of a (uniform) embedding matrix. -/
def matrixDim (m : List (List ℚ)) : Nat := (m.headD []).length

/-- `add_texts(texts, metadatas, embedder)` on a loaded store. -/
def add_texts (st : VectorDBState) (texts : List String)
    (metadatas : List ChunkMeta) (embed : List String → List (List ℚ)) :
    Except String VectorDBState :=
  if texts = [] then .ok st
  else
    match st.embeddings with
    | none => .ok ⟨texts, metadatas, some (embed texts)⟩
    | some embs =>
      if matrixDim (embed texts) = matrixDim embs then
        .ok ⟨st.texts ++ texts, st.metadatas ++ metadatas,
             some (embs ++ embed texts)⟩
      else .error "ValueError"

example : mmr_select [mkRat 1 1, mkRat 9 10] (fun _ _ => 1) 2 (mkRat 7 10) = [0] := by decide

example : rawCandidateRanking [mkRat 1 2, mkRat 1 2] 2 2 = [1, 0] := by decide

example : detect_hallucination [mkRat 2 5] (mkRat 3 10) = (false, "medium", mkRat 2 5) := by decide

example : dedupe [⟨some "s", some "0", none⟩, ⟨some "s", some "0", none⟩] [0, 1] = [0] := by decide

/-! ## Separator-join combinators (proof support for the chunker)

`joinSep g l` interleaves the glue `g` between the parts of `l` (the shape
of the original text as reconstructed from a split); `joinSepPre g l` puts
the glue before every part (the shape of the text that follows an
already-consumed prefix).  These are specification-side combinators used to
relate the chunker's output to its input. -/

def joinSep (g : Chars) : List Chars → Chars
  | [] => []
  | [x] => x
  | x :: y :: xs => x ++ g ++ joinSep g (y :: xs)

def joinSepPre (g : Chars) (l : List Chars) : Chars :=
  (l.map (fun x => g ++ x)).flatten

/-! ## Helper lemmas: list maxima -/

theorem foldl_max_init_le (xs : List ℚ) (a : ℚ) : a ≤ xs.foldl max a := by
  induction xs generalizing a with
  | nil => exact le_refl a
  | cons x xs ih => exact le_trans (le_max_left a x) (ih (max a x))

theorem foldl_max_mem_or (xs : List ℚ) (a : ℚ) :
    xs.foldl max a = a ∨ xs.foldl max a ∈ xs := by
  induction xs generalizing a with
  | nil => exact Or.inl rfl
  | cons x xs ih =>
    rcases ih (max a x) with h | h
    · rcases max_choice a x with hc | hc
      · exact Or.inl (by rw [List.foldl_cons, h, hc])
      · exact Or.inr (by rw [List.foldl_cons, h, hc]; exact List.mem_cons_self x xs)
    · exact Or.inr (List.mem_cons_of_mem x h)

theorem le_foldl_max (xs : List ℚ) (a x : ℚ) (hx : x ∈ xs) : x ≤ xs.foldl max a := by
  induction xs generalizing a with
  | nil => cases hx
  | cons y ys ih =>
    rcases List.mem_cons.mp hx with rfl | h
    · exact le_trans (le_max_right a x) (foldl_max_init_le ys (max a x))
    · exact ih (max a y) h

theorem pyMax_mem (l : List ℚ) (h : l ≠ []) : pyMax l ∈ l := by
  match l, h with
  | x :: xs, _ =>
    rcases foldl_max_mem_or xs x with h1 | h1
    · simp [pyMax, h1]
    · simpa [pyMax] using List.mem_cons_of_mem x h1

theorem le_pyMax (l : List ℚ) (x : ℚ) (hx : x ∈ l) : x ≤ pyMax l := by
  match l, hx with
  | y :: ys, hx =>
    rcases List.mem_cons.mp hx with rfl | h
    · simpa [pyMax] using foldl_max_init_le ys x
    · simpa [pyMax] using le_foldl_max ys y x h

theorem detect_hallucination_score (sims : List ℚ) (t : ℚ) (h : sims ≠ []) :
    (detect_hallucination sims t).2.2 = pyMax sims := by
  match sims, h with
  | x :: xs, _ =>
    simp only [detect_hallucination]
    split_ifs <;> rfl

/-! ## Claim C3 -/

/-- Claim C3 counterexample: the first cutoff of `_detect_hallucination` is
the `threshold` parameter, not the constant `0.5`; at `threshold = 0.3` the
list `[0.4]` has max score `0.4 < 0.5` yet is classified
`(flag = false, risk = "medium")`, contradicting the claimed mapping
`score < 0.5 → (flag = true, risk = "high")` "for every threshold". -/
theorem detect_hallucination_threshold_counterexample :
    detect_hallucination [mkRat 2 5] (mkRat 3 10) = (false, "medium", mkRat 2 5) ∧
    mkRat 2 5 < mkRat 1 2 ∧
    (detect_hallucination [mkRat 2 5] (mkRat 3 10)).1 ≠ true ∧
    (detect_hallucination [mkRat 2 5] (mkRat 3 10)).2.1 ≠ "high" := by
  decide

/-- Claim C3 (amended): `_detect_hallucination` is a pure function of the
similarity list; the returned score is the maximum of the list (`0.0` for
the empty list, which yields `(true, "high", 0.0)`); the flag is set iff
the score is below the `threshold` parameter (default `0.5`), and the risk
label is `"high"` below `threshold`, `"medium"` for scores in
`[threshold, 0.7)`, and `"low"` for scores at least `max(threshold, 0.7)`.
The claimed constant-`0.5` mapping is the instance `threshold = 0.5`. -/
theorem detect_hallucination_gate (sims : List ℚ) (t : ℚ) :
    detect_hallucination [] t = (true, "high", 0) ∧
    (sims ≠ [] →
      (detect_hallucination sims t).2.2 ∈ sims ∧
      (∀ x ∈ sims, x ≤ (detect_hallucination sims t).2.2) ∧
      ((detect_hallucination sims t).2.2 < t →
        detect_hallucination sims t = (true, "high", (detect_hallucination sims t).2.2)) ∧
      (t ≤ (detect_hallucination sims t).2.2 →
        (detect_hallucination sims t).2.2 < mkRat 7 10 →
        detect_hallucination sims t = (false, "medium", (detect_hallucination sims t).2.2)) ∧
      (t ≤ (detect_hallucination sims t).2.2 →
        mkRat 7 10 ≤ (detect_hallucination sims t).2.2 →
        detect_hallucination sims t = (false, "low", (detect_hallucination sims t).2.2))) := by
  refine ⟨rfl, fun h => ?_⟩
  have hs := detect_hallucination_score sims t h
  refine ⟨hs ▸ pyMax_mem sims h, fun x hx => hs ▸ le_pyMax sims x hx, ?_, ?_, ?_⟩
  · intro hlt
    rw [hs] at hlt ⊢
    match sims, h with
    | y :: ys, _ => simp only [detect_hallucination, if_pos hlt]
  · intro hge hmed
    rw [hs] at hge hmed ⊢
    match sims, h with
    | y :: ys, _ =>
      simp only [detect_hallucination, if_neg (not_lt.mpr hge), if_pos hmed]
  · intro hge hhi
    rw [hs] at hge hhi ⊢
    match sims, h with
    | y :: ys, _ =>
      simp only [detect_hallucination, if_neg (not_lt.mpr hge),
        if_neg (not_lt.mpr hhi)]

theorem detect_hallucination_gate_witness :
    detect_hallucination [] (mkRat 1 2) = (true, "high", 0) ∧
    ((detect_hallucination [mkRat 9 10, mkRat 3 10] (mkRat 1 2)).2.2 ∈
        [mkRat 9 10, mkRat 3 10] ∧
      (∀ x ∈ [mkRat 9 10, mkRat 3 10],
        x ≤ (detect_hallucination [mkRat 9 10, mkRat 3 10] (mkRat 1 2)).2.2) ∧
      ((detect_hallucination [mkRat 9 10, mkRat 3 10] (mkRat 1 2)).2.2 < mkRat 1 2 →
        detect_hallucination [mkRat 9 10, mkRat 3 10] (mkRat 1 2) =
          (true, "high", (detect_hallucination [mkRat 9 10, mkRat 3 10] (mkRat 1 2)).2.2)) ∧
      (mkRat 1 2 ≤ (detect_hallucination [mkRat 9 10, mkRat 3 10] (mkRat 1 2)).2.2 →
        (detect_hallucination [mkRat 9 10, mkRat 3 10] (mkRat 1 2)).2.2 < mkRat 7 10 →
        detect_hallucination [mkRat 9 10, mkRat 3 10] (mkRat 1 2) =
          (false, "medium", (detect_hallucination [mkRat 9 10, mkRat 3 10] (mkRat 1 2)).2.2)) ∧
      (mkRat 1 2 ≤ (detect_hallucination [mkRat 9 10, mkRat 3 10] (mkRat 1 2)).2.2 →
        mkRat 7 10 ≤ (detect_hallucination [mkRat 9 10, mkRat 3 10] (mkRat 1 2)).2.2 →
        detect_hallucination [mkRat 9 10, mkRat 3 10] (mkRat 1 2) =
          (false, "low", (detect_hallucination [mkRat 9 10, mkRat 3 10] (mkRat 1 2)).2.2))) :=
  ⟨(detect_hallucination_gate [] (mkRat 1 2)).1,
   (detect_hallucination_gate [mkRat 9 10, mkRat 3 10] (mkRat 1 2)).2 (by decide)⟩

/-! ## Claims C1 and C10 -/

/-- Claim C1: whenever the computed confidence score (the maximum retrieved
similarity) is strictly below the abstain threshold, `answer_question`
returns the fixed "not covered" response and never invokes the generation
service for answer synthesis. -/
theorem answer_question_abstains_below_threshold
    (q : String) (docs : List RetrievedDoc) (t : ℚ) (a : String)
    (hq : pyStrip q.data ≠ []) (hd : docs ≠ [])
    (hlow : pyMax (docs.map (fun d => d.score)) < t) :
    (answer_question q docs t a).1.answer =
      "Not covered in the provided policy excerpts." ∧
    (answer_question q docs t a).1.confidenceScore =
      pyMax (docs.map (fun d => d.score)) ∧
    (answer_question q docs t a).2 = false := by
  have hsim : docs.map (fun d => d.score) ≠ [] := by
    intro hmap
    exact hd (List.map_eq_nil_iff.mp hmap)
  have hs := detect_hallucination_score (docs.map (fun d => d.score)) (mkRat 1 2) hsim
  unfold answer_question
  rw [if_neg hq, if_neg hd, hs, if_pos hlow]
  exact ⟨rfl, rfl, rfl⟩

theorem answer_question_abstains_below_threshold_witness :
    (answer_question "What is the late policy?"
        [⟨"sometext", "policy.pdf", "p1_0", some 1, mkRat 1 5⟩]
        (mkRat 7 20) "ignored").1.answer =
      "Not covered in the provided policy excerpts." ∧
    (answer_question "What is the late policy?"
        [⟨"sometext", "policy.pdf", "p1_0", some 1, mkRat 1 5⟩]
        (mkRat 7 20) "ignored").1.confidenceScore =
      pyMax (([⟨"sometext", "policy.pdf", "p1_0", some 1, mkRat 1 5⟩] :
        List RetrievedDoc).map (fun d => d.score)) ∧
    (answer_question "What is the late policy?"
        [⟨"sometext", "policy.pdf", "p1_0", some 1, mkRat 1 5⟩]
        (mkRat 7 20) "ignored").2 = false :=
  answer_question_abstains_below_threshold
    "What is the late policy?"
    [⟨"sometext", "policy.pdf", "p1_0", some 1, mkRat 1 5⟩]
    (mkRat 7 20) "ignored" (by decide) (by decide) (by decide)

/-- Claim C10: an empty retrieval outcome (empty index, empty candidate
list, or a search failure) yields an envelope with no citations, label
`"low"`, confidence score exactly `0.1` (not `0.0`), hallucination flag
set, risk `"high"`, and the generation service is not invoked for answer
synthesis. -/
theorem answer_question_empty_retrieval (q : String) (t : ℚ) (a : String)
    (hq : pyStrip q.data ≠ []) :
    (answer_question q [] t a).1.citations = [] ∧
    (answer_question q [] t a).1.confidenceLabel = "low" ∧
    (answer_question q [] t a).1.confidenceScore = mkRat 1 10 ∧
    (answer_question q [] t a).1.confidenceScore ≠ 0 ∧
    (answer_question q [] t a).1.hallucinationFlag = true ∧
    (answer_question q [] t a).1.hallucinationRisk = "high" ∧
    (answer_question q [] t a).2 = false := by
  unfold answer_question
  rw [if_neg hq, if_pos (rfl : ([] : List RetrievedDoc) = [])]
  exact ⟨rfl, rfl, rfl, by decide, rfl, rfl, rfl⟩

theorem answer_question_empty_retrieval_witness :
    (answer_question "What is the late policy?" [] (mkRat 7 20) "ignored").1.citations = [] ∧
    (answer_question "What is the late policy?" [] (mkRat 7 20) "ignored").1.confidenceLabel = "low" ∧
    (answer_question "What is the late policy?" [] (mkRat 7 20) "ignored").1.confidenceScore = mkRat 1 10 ∧
    (answer_question "What is the late policy?" [] (mkRat 7 20) "ignored").1.confidenceScore ≠ 0 ∧
    (answer_question "What is the late policy?" [] (mkRat 7 20) "ignored").1.hallucinationFlag = true ∧
    (answer_question "What is the late policy?" [] (mkRat 7 20) "ignored").1.hallucinationRisk = "high" ∧
    (answer_question "What is the late policy?" [] (mkRat 7 20) "ignored").2 = false :=
  answer_question_empty_retrieval "What is the late policy?" (mkRat 7 20) "ignored" (by decide)

/-! ## Claim C9 -/

theorem dedupeGo_key_distinct (metas : List ChunkMeta) (raw : List Nat)
    (seen : List (String × String)) :
    (∀ i ∈ dedupeGo metas raw seen, dedupeKey metas i ∉ seen) ∧
    List.Pairwise (fun i j => dedupeKey metas i ≠ dedupeKey metas j)
      (dedupeGo metas raw seen) := by
  induction raw generalizing seen with
  | nil => exact ⟨by simp [dedupeGo], by simp [dedupeGo]⟩
  | cons idx rest ih =>
    by_cases h : dedupeKey metas idx ∈ seen
    · simpa [dedupeGo, h] using ih seen
    · simp only [dedupeGo, if_neg h]
      obtain ⟨ih1, ih2⟩ := ih (dedupeKey metas idx :: seen)
      constructor
      · intro i hi
        rcases List.mem_cons.mp hi with rfl | hi'
        · exact h
        · intro hmem
          exact ih1 i hi' (List.mem_cons_of_mem _ hmem)
      · refine List.pairwise_cons.mpr ⟨?_, ih2⟩
        intro j hj heq
        exact ih1 j hj (by rw [← heq]; exact List.mem_cons_self _ _)

theorem dedupeGo_of_distinct (metas : List ChunkMeta) (l : List Nat)
    (seen : List (String × String))
    (hdist : List.Pairwise (fun i j => dedupeKey metas i ≠ dedupeKey metas j) l)
    (hseen : ∀ i ∈ l, dedupeKey metas i ∉ seen) :
    dedupeGo metas l seen = l := by
  induction l generalizing seen with
  | nil => rfl
  | cons idx rest ih =>
    have h1 : dedupeKey metas idx ∉ seen := hseen idx (List.mem_cons_self _ _)
    simp only [dedupeGo, if_neg h1]
    refine congrArg (idx :: ·)
      (ih (dedupeKey metas idx :: seen) (List.pairwise_cons.mp hdist).2 ?_)
    intro i hi
    simp only [List.mem_cons, not_or]
    refine ⟨?_, hseen i (List.mem_cons_of_mem _ hi)⟩
    intro heq
    exact (List.pairwise_cons.mp hdist).1 i hi heq.symm

/-- Claim C9: the dedupe stage of `similarity_search` is idempotent —
applied to a list it has already produced, it returns that list unchanged,
for every metadata assignment and every candidate list. -/
theorem dedupe_idempotent (metas : List ChunkMeta) (raw : List Nat) :
    dedupe metas (dedupe metas raw) = dedupe metas raw := by
  obtain ⟨_, h2⟩ := dedupeGo_key_distinct metas raw []
  exact dedupeGo_of_distinct metas _ [] h2 (fun i _ => List.not_mem_nil _)

/-! ## Claim C2 -/

/-- Claim C2 is violated by the code: the loop guard of `mmr_select`
compares the selection size against `min(k, len(candidate_indices))`, where
`candidate_indices` *shrinks* as items are selected.  On a pool of `M = 2`
candidates with `k = 2`, the loop stops after a single pick
(`1 ≥ min(2, 1)`), so only `min(k, ⌈M/2⌉) = 1` index is returned instead of
the claimed `min(k, M) = 2`.  This also contradicts `similarity_search`'s
own docstring ("Return top-k chunks for query"). -/
theorem mmr_select_stops_at_half_pool :
    mmr_select [mkRat 1 1, mkRat 9 10] (fun _ _ => 1) 2 (mkRat 7 10) = [0] ∧
    (mmr_select [mkRat 1 1, mkRat 9 10] (fun _ _ => 1) 2 (mkRat 7 10)).length ≠
      min 2 2 := by
  decide

/-! ## Claim C5 -/

/-- Claim C5 counterexample: the code has no `DimensionMismatchError`;
inserting vectors of a different dimensionality into a non-empty index
fails with NumPy's generic `ValueError` raised by `np.concatenate`. -/
theorem add_texts_value_error_counterexample :
    add_texts ⟨["a"], [⟨some "s", some "0", none⟩], some [[1, 2]]⟩
        ["b"] [⟨some "s", some "1", none⟩] (fun _ => [[1, 2, 3]]) =
      .error "ValueError" ∧
    (Except.error "ValueError" : Except String VectorDBState) ≠
      .error "DimensionMismatchError" := by
  refine ⟨by rfl, ?_⟩
  intro h
  injection h with h2
  exact absurd h2 (by decide)

/-- Claim C5 (amended): inserting uniformly `d'`-dimensional vectors into a
non-empty index holding `d`-dimensional vectors with `d ≠ d'` fails —
nothing is stored — but with NumPy's generic `ValueError` (from
`np.concatenate`), not a dedicated `DimensionMismatchError` kind, which
does not exist in the code. -/
theorem add_texts_dimension_mismatch (st : VectorDBState) (texts : List String)
    (metas : List ChunkMeta) (embed : List String → List (List ℚ))
    (embs : List (List ℚ)) (d d' : Nat)
    (htexts : texts ≠ []) (hembs : st.embeddings = some embs) (hne : embs ≠ [])
    (hrow : ∀ r ∈ embs, r.length = d)
    (hne' : embed texts ≠ []) (hrow' : ∀ r ∈ embed texts, r.length = d')
    (hdd : d ≠ d') :
    add_texts st texts metas embed = .error "ValueError" := by
  have h1 : matrixDim embs = d := by
    match embs, hne with
    | r :: rs, _ => exact hrow r (List.mem_cons_self _ _)
  have h2 : matrixDim (embed texts) = d' := by
    match hmatch : embed texts, hne' with
    | r :: rs, _ =>
      have := hrow' r (by rw [hmatch]; exact List.mem_cons_self _ _)
      simpa [matrixDim] using this
  simp only [add_texts, if_neg htexts, hembs]
  rw [if_neg]
  rw [h1, h2]
  exact fun h => hdd h.symm

theorem add_texts_dimension_mismatch_witness :
    add_texts ⟨["a"], [⟨some "s", some "0", none⟩], some [[1, 2]]⟩
        ["b"] [⟨some "s", some "1", none⟩] (fun _ => [[1, 2, 3]]) =
      .error "ValueError" :=
  add_texts_dimension_mismatch
    ⟨["a"], [⟨some "s", some "0", none⟩], some [[1, 2]]⟩
    ["b"] [⟨some "s", some "1", none⟩] (fun _ => [[1, 2, 3]])
    [[1, 2]] 2 3 (by decide) rfl (by decide) (by decide) (by decide) (by decide)
    (by decide)

/-! ## Claim C4 -/

instance argsortRelIsTotal (sims : List ℚ) : IsTotal Nat (argsortRel sims) := by
  constructor
  intro i j
  rcases lt_trichotomy (sims.getD i 0) (sims.getD j 0) with h | h | h
  · exact Or.inl (Or.inl h)
  · rcases Nat.le_total i j with hij | hij
    · exact Or.inl (Or.inr ⟨h, hij⟩)
    · exact Or.inr (Or.inr ⟨h.symm, hij⟩)
  · exact Or.inr (Or.inl h)

instance argsortRelIsTrans (sims : List ℚ) : IsTrans Nat (argsortRel sims) := by
  constructor
  intro a b c hab hbc
  rcases hab with h1 | ⟨e1, l1⟩
  · rcases hbc with h2 | ⟨e2, l2⟩
    · exact Or.inl (lt_trans h1 h2)
    · exact Or.inl (e2 ▸ h1)
  · rcases hbc with h2 | ⟨e2, l2⟩
    · exact Or.inl (e1 ▸ h2)
    · exact Or.inr ⟨e1.trans e2, le_trans l1 l2⟩

/-- Claim C4 counterexample: `argsort()[::-1]` reverses the ascending
argsort, so among entries with equal similarity the *later*-inserted index
comes first.  On two entries of similarity `0.5` the raw candidate ranking
is `[1, 0]`, not the claimed `[0, 1]` (earlier-inserted first).  Under the
stable-argsort model this already refutes the claim; NumPy's actual
(unstable introsort) argsort produces the same `[1, 0]` here. -/
theorem rawCandidateRanking_tie_counterexample :
    rawCandidateRanking [mkRat 1 2, mkRat 1 2] 2 2 = [1, 0] ∧
    rawCandidateRanking [mkRat 1 2, mkRat 1 2] 2 2 ≠ [0, 1] := by
  decide

/-- Claim C4 (amended): the raw candidate ranking of `similarity_search`
deterministically returns the `min(max(top_k_raw, k), N)` candidates of
highest similarity, ordered by descending similarity with ties broken by
*descending* insertion order (later-inserted entries first), under the
stable-ascending-argsort model of `np.argsort`; every returned index is a
valid position of the store.  "Highest similarity" is the last conjunct:
every selected index dominates every non-selected valid index in the
argsort order (no candidate outside the selection has strictly higher
similarity, and tied candidates outside it have smaller insertion index).
(Determinism over repeated calls is inherent: the ranking is a pure
function of the index state and similarity vector.) -/
theorem rawCandidateRanking_sorted (sims : List ℚ) (k topKRaw : Nat) :
    List.Sorted (fun i j => argsortRel sims j i) (rawCandidateRanking sims k topKRaw) ∧
    (rawCandidateRanking sims k topKRaw).length = min (max topKRaw k) sims.length ∧
    (∀ i ∈ rawCandidateRanking sims k topKRaw, i < sims.length) ∧
    (∀ i ∈ rawCandidateRanking sims k topKRaw, ∀ j, j < sims.length →
      j ∉ rawCandidateRanking sims k topKRaw → argsortRel sims j i) := by
  have hperm := List.perm_insertionSort (argsortRel sims) (List.range sims.length)
  have hsorted := List.sorted_insertionSort (argsortRel sims) (List.range sims.length)
  have hlen : (argsortStable sims).length = sims.length := by
    rw [argsortStable, hperm.length_eq, List.length_range]
  refine ⟨?_, ?_, ?_, ?_⟩
  · have hrev : List.Sorted (fun i j => argsortRel sims j i)
        (argsortStable sims).reverse :=
      List.pairwise_reverse.mpr hsorted
    exact hrev.sublist (List.take_sublist _ _)
  · rw [rawCandidateRanking, List.length_take, List.length_reverse, hlen]
    omega
  · intro i hi
    have h1 : i ∈ (argsortStable sims).reverse := List.mem_of_mem_take hi
    have h2 : i ∈ argsortStable sims := List.mem_reverse.mp h1
    exact List.mem_range.mp (hperm.mem_iff.mp h2)
  · intro i hi j hjlt hjnot
    unfold rawCandidateRanking at hi hjnot
    have hjL : j ∈ (argsortStable sims).reverse := by
      rw [List.mem_reverse]
      exact hperm.mem_iff.mpr (List.mem_range.mpr hjlt)
    have hsplit := List.take_append_drop (min (max topKRaw k) sims.length)
      (argsortStable sims).reverse
    have hjdrop : j ∈ ((argsortStable sims).reverse).drop
        (min (max topKRaw k) sims.length) := by
      rcases List.mem_append.mp (by rw [hsplit]; exact hjL) with h | h
      · exact absurd h hjnot
      · exact h
    have hpw : List.Pairwise (fun a b => argsortRel sims b a)
        (((argsortStable sims).reverse).take (min (max topKRaw k) sims.length) ++
          ((argsortStable sims).reverse).drop (min (max topKRaw k) sims.length)) := by
      rw [hsplit]
      exact List.pairwise_reverse.mpr hsorted
    exact (List.pairwise_append.mp hpw).2.2 i hi j hjdrop

theorem rawCandidateRanking_sorted_witness :
    argsortRel [mkRat 1 2, mkRat 1 1] 0 1 :=
  (rawCandidateRanking_sorted [mkRat 1 2, mkRat 1 1] 1 1).2.2.2 1 (by decide) 0
    (by decide) (by decide)

/-! ## Helper lemmas: stripping and slicing -/

theorem pyStrip_sublist (s : Chars) : (pyStrip s).Sublist s := by
  have h1 : (s.dropWhile pyIsSpace).Sublist s := List.dropWhile_sublist _
  have h2 : ((s.dropWhile pyIsSpace).reverse.dropWhile pyIsSpace).Sublist
      (s.dropWhile pyIsSpace).reverse := List.dropWhile_sublist _
  have h3 := h2.reverse
  rw [List.reverse_reverse] at h3
  exact h3.trans h1

theorem pyStrip_length_le (s : Chars) : (pyStrip s).length ≤ s.length :=
  (pyStrip_sublist s).length_le

theorem takeRightN_length_le (n : Nat) (l : Chars) : (takeRightN n l).length ≤ n := by
  simp only [takeRightN, List.length_drop]
  omega

theorem takeRightN_length_eq_min (n : Nat) (l : Chars) :
    (takeRightN n l).length = min n l.length := by
  simp only [takeRightN, List.length_drop]
  omega

/-! ## Helper lemmas: `joinSep` and `joinSepPre` -/

theorem joinSep_nil (g : Chars) : joinSep g [] = [] := rfl

theorem joinSep_single (g : Chars) (x : Chars) : joinSep g [x] = x := rfl

theorem joinSep_cons_cons (g x y : Chars) (xs : List Chars) :
    joinSep g (x :: y :: xs) = x ++ g ++ joinSep g (y :: xs) := rfl

theorem joinSepPre_nil (g : Chars) : joinSepPre g [] = [] := rfl

theorem joinSepPre_cons (g x : Chars) (xs : List Chars) :
    joinSepPre g (x :: xs) = (g ++ x) ++ joinSepPre g xs := by
  simp [joinSepPre]

theorem head_sublist_joinSep (g x : Chars) (xs : List Chars) :
    x.Sublist (joinSep g (x :: xs)) := by
  cases xs with
  | nil => exact List.Sublist.refl x
  | cons y ys =>
    rw [joinSep_cons_cons, List.append_assoc]
    exact List.sublist_append_left x _

theorem joinSep_tail_sublist (g x : Chars) (xs : List Chars) :
    (joinSep g xs).Sublist (joinSep g (x :: xs)) := by
  cases xs with
  | nil => exact List.nil_sublist _
  | cons y ys =>
    rw [joinSep_cons_cons, List.append_assoc]
    exact (List.sublist_append_right g _).trans (List.sublist_append_right x _)

theorem joinSep_map_pyStrip (g : Chars) (l : List Chars) :
    (joinSep g (l.map pyStrip)).Sublist (joinSep g l) := by
  match l with
  | [] => exact List.Sublist.refl _
  | [x] => exact pyStrip_sublist x
  | x :: y :: xs =>
    rw [List.map_cons, List.map_cons, joinSep_cons_cons, joinSep_cons_cons]
    refine List.Sublist.append (List.Sublist.append (pyStrip_sublist x) (List.Sublist.refl g)) ?_
    rw [← List.map_cons]
    exact joinSep_map_pyStrip g (y :: xs)

theorem joinSep_filter_sublist (g : Chars) (q : Chars → Bool) (l : List Chars) :
    (joinSep g (l.filter q)).Sublist (joinSep g l) := by
  induction l with
  | nil => exact List.Sublist.refl _
  | cons x rest ih =>
    by_cases hq : q x
    · rw [List.filter_cons_of_pos hq]
      cases hfr : rest.filter q with
      | nil =>
        rw [joinSep_single]
        exact head_sublist_joinSep g x rest
      | cons z zs =>
        cases rest with
        | nil => simp at hfr
        | cons r rs =>
          rw [joinSep_cons_cons, joinSep_cons_cons]
          refine List.Sublist.append (List.Sublist.refl (x ++ g)) ?_
          rw [← hfr]
          exact ih
    · rw [List.filter_cons_of_neg hq]
      exact ih.trans (joinSep_tail_sublist g x rest)

theorem joinSep_glue_mono (g g' : Chars) (l : List Chars) (hg : g'.Sublist g) :
    (joinSep g' l).Sublist (joinSep g l) := by
  match l with
  | [] => exact List.Sublist.refl _
  | [x] => exact List.Sublist.refl _
  | x :: y :: xs =>
    rw [joinSep_cons_cons, joinSep_cons_cons]
    exact List.Sublist.append (List.Sublist.append (List.Sublist.refl x) hg)
      (joinSep_glue_mono g g' (y :: xs) hg)

theorem joinSep_append_sublist (g : Chars) (A B : List Chars) :
    (joinSep g (A ++ B)).Sublist (joinSep g A ++ g ++ joinSep g B) := by
  match A with
  | [] =>
    rw [List.nil_append, joinSep_nil, List.nil_append]
    exact List.sublist_append_right g _
  | [a] =>
    cases B with
    | nil =>
      simp only [List.append_nil, joinSep_single, joinSep_nil]
      exact List.sublist_append_left a g
    | cons b bs =>
      rw [List.singleton_append, joinSep_cons_cons, joinSep_single]
  | a :: a2 :: A2 =>
    rw [List.cons_append, List.cons_append, joinSep_cons_cons]
    rw [← List.cons_append, joinSep_cons_cons, List.append_assoc, List.append_assoc,
      List.append_assoc, List.append_assoc]
    refine List.Sublist.append (List.Sublist.refl a) ?_
    refine List.Sublist.append (List.Sublist.refl g) ?_
    have := joinSep_append_sublist g (a2 :: A2) B
    rw [List.cons_append] at this
    rw [← List.append_assoc]
    exact this

theorem joinSep_flatten_sublist (g : Chars) (f : Chars → List Chars)
    (units : List Chars) (h : ∀ u ∈ units, (joinSep g (f u)).Sublist u) :
    (joinSep g ((units.map f).flatten)).Sublist (joinSep g units) := by
  induction units with
  | nil => exact List.Sublist.refl _
  | cons u rest ih =>
    rw [List.map_cons, List.flatten_cons]
    cases rest with
    | nil =>
      simp only [List.map_nil, List.flatten_nil, List.append_nil]
      exact h u (List.mem_cons_self _ _)
    | cons r rs =>
      refine (joinSep_append_sublist g (f u) ((List.map f (r :: rs)).flatten)).trans ?_
      rw [joinSep_cons_cons]
      exact List.Sublist.append
        (List.Sublist.append (h u (List.mem_cons_self _ _)) (List.Sublist.refl g))
        (ih (fun v hv => h v (List.mem_cons_of_mem _ hv)))

theorem cons_joinSepPre_sublist (g a : Chars) (l : List Chars) :
    (a ++ joinSepPre g l).Sublist (joinSep g (a :: l)) := by
  induction l generalizing a with
  | nil =>
    rw [joinSepPre_nil, List.append_nil, joinSep_single]
  | cons x xs ih =>
    simp only [joinSepPre_cons, joinSep_cons_cons, List.append_assoc]
    exact List.Sublist.append (List.Sublist.refl a)
      (List.Sublist.append (List.Sublist.refl g) (ih x))

theorem joinSepPre_tail_sublist (g u : Chars) (rest : List Chars) :
    (joinSepPre g rest).Sublist (joinSepPre g (u :: rest)) := by
  rw [joinSepPre_cons]
  exact List.sublist_append_right _ _

/-! ## Helper lemmas: `splitOnSep` reconstructs its input -/

theorem splitOnSepGo_ne_nil (s0 : Char) (srest : Chars) (fuel : Nat) (s : Chars) :
    splitOnSepGo s0 srest fuel s ≠ [] := by
  match fuel, s with
  | 0, s => simp [splitOnSepGo]
  | fuel + 1, [] => simp [splitOnSepGo]
  | fuel + 1, c :: rest =>
    simp only [splitOnSepGo]
    split
    · simp
    · split <;> simp

theorem joinSep_splitOnSepGo (s0 : Char) (srest : Chars) (fuel : Nat) (s : Chars) :
    joinSep (s0 :: srest) (splitOnSepGo s0 srest fuel s) = s := by
  induction fuel generalizing s with
  | zero => cases s <;> rfl
  | succ fuel ih =>
    match s with
    | [] => rfl
    | c :: rest =>
      simp only [splitOnSepGo]
      by_cases hc : c = s0 ∧ srest.isPrefixOf rest
      · rw [if_pos hc]
        obtain ⟨hc1, hc2⟩ := hc
        obtain ⟨t, ht⟩ := List.isPrefixOf_iff_prefix.mp hc2
        cases hR : splitOnSepGo s0 srest fuel (rest.drop srest.length) with
        | nil => exact absurd hR (splitOnSepGo_ne_nil s0 srest fuel _)
        | cons p ps =>
          have hj := ih (rest.drop srest.length)
          rw [hR] at hj
          rw [joinSep_cons_cons, hj, List.nil_append, ← ht, List.drop_left, hc1,
            List.cons_append]
      · rw [if_neg hc]
        cases hR : splitOnSepGo s0 srest fuel rest with
        | nil => exact absurd hR (splitOnSepGo_ne_nil s0 srest fuel rest)
        | cons p ps =>
          have hj := ih rest
          rw [hR] at hj
          cases ps with
          | nil =>
            rw [joinSep_single]
            rw [joinSep_single] at hj
            rw [hj]
          | cons q qs =>
            rw [joinSep_cons_cons]
            rw [joinSep_cons_cons] at hj
            simp only [List.cons_append]
            rw [hj]

theorem joinSep_splitOnSep (s0 : Char) (srest : Chars) (s : Chars) :
    joinSep (s0 :: srest) (splitOnSep s0 srest s) = s :=
  joinSep_splitOnSepGo s0 srest s.length s

/-- The cleaned parts of a split reconstruct at most the original unit, for
any glue that is a subsequence of the separator. -/
theorem joinSep_cleanParts_sublist (g : Chars) (s0 : Char) (srest : Chars)
    (u : Chars) (hg : g.Sublist (s0 :: srest)) :
    (joinSep g (cleanParts s0 srest u)).Sublist u := by
  refine ((joinSep_filter_sublist g _ _).trans
    ((joinSep_map_pyStrip g _).trans ?_))
  refine (joinSep_glue_mono (s0 :: srest) g _ hg).trans ?_
  rw [joinSep_splitOnSep]

/-! ## Helper lemmas: `_hard_split` -/

theorem hardSplitGo_flatten_sublist (cs fuel : Nat) (l : Chars) :
    ((hardSplitGo cs fuel l).flatten).Sublist l := by
  induction fuel generalizing l with
  | zero => cases l <;> exact List.nil_sublist _
  | succ fuel ih =>
    match l with
    | [] => exact List.nil_sublist _
    | c :: rest =>
      show ((hardSplitGo cs (fuel + 1) (c :: rest)).flatten).Sublist (c :: rest)
      simp only [hardSplitGo, List.flatten_append]
      have hpiece :
          ((if pyStrip ((c :: rest).take cs) = [] then []
            else [pyStrip ((c :: rest).take cs)]).flatten).Sublist
            ((c :: rest).take cs) := by
        split
        · exact List.nil_sublist _
        · simpa using pyStrip_sublist _
      have := List.Sublist.append hpiece (ih ((c :: rest).drop cs))
      rwa [List.take_append_drop] at this

theorem hard_split_flatten_sublist (t : Chars) (cs : Nat) :
    ((hard_split t cs).flatten).Sublist t :=
  (hardSplitGo_flatten_sublist cs _ (pyStrip t)).trans (pyStrip_sublist t)

theorem hardSplitGo_length_le (cs fuel : Nat) (l : Chars) :
    ∀ x ∈ hardSplitGo cs fuel l, x.length ≤ cs := by
  induction fuel generalizing l with
  | zero => intro x hx; simp [hardSplitGo] at hx
  | succ fuel ih =>
    match l with
    | [] => intro x hx; simp [hardSplitGo] at hx
    | c :: rest =>
      intro x hx
      simp only [hardSplitGo, List.mem_append] at hx
      rcases hx with hx | hx
      · have hx' : x = pyStrip ((c :: rest).take cs) := by
          split at hx
          · simp at hx
          · simpa using hx
        subst hx'
        calc (pyStrip ((c :: rest).take cs)).length
            ≤ ((c :: rest).take cs).length := pyStrip_length_le _
          _ ≤ cs := by rw [List.length_take]; omega
      · exact ih _ x hx

theorem hard_split_length_le (t : Chars) (cs : Nat) :
    ∀ x ∈ hard_split t cs, x.length ≤ cs :=
  hardSplitGo_length_le cs _ (pyStrip t)

/-! ## Helper lemmas: the `_split_long_unit` packing loop -/

theorem sublist_append_middle (X S T : Chars) : (X ++ T).Sublist (X ++ (S ++ T)) :=
  List.Sublist.append (List.Sublist.refl X) (List.sublist_append_right S T)

theorem append_bufOpt_flatten_sublist (out : List Chars) (buf : Chars) :
    (((out ++ (if buf = [] then [] else [buf])) : List Chars).flatten).Sublist
      (out.flatten ++ buf) := by
  rw [List.flatten_append]
  refine List.Sublist.append (List.Sublist.refl _) ?_
  split
  · exact List.nil_sublist _
  · simp

theorem packPartsGo_flatten_sublist (cs : Nat) (sep : Chars) (parts out : List Chars)
    (buf : Chars) :
    ((packPartsGo cs sep parts out buf).flatten).Sublist
      ((out.flatten ++ buf) ++ joinSepPre sep parts) := by
  induction parts generalizing out buf with
  | nil =>
    rw [joinSepPre_nil, List.append_nil]
    exact append_bufOpt_flatten_sublist out buf
  | cons p rest ih =>
    rw [joinSepPre_cons]
    simp only [packPartsGo]
    by_cases hfit : (if buf = [] then p else pyStrip (buf ++ sep ++ p)).length ≤ cs
    · rw [if_pos hfit]
      refine (ih out _).trans ?_
      by_cases hb : buf = []
      · subst hb
        rw [if_pos rfl]
        simp only [List.append_nil, List.append_assoc]
        exact List.Sublist.append (List.Sublist.refl _)
          (List.sublist_append_right sep _)
      · rw [if_neg hb]
        simp only [List.append_assoc]
        refine List.Sublist.append (List.Sublist.refl out.flatten) ?_
        have := List.Sublist.append (pyStrip_sublist (buf ++ sep ++ p))
          (List.Sublist.refl (joinSepPre sep rest))
        simpa [List.append_assoc] using this
    · rw [if_neg hfit]
      by_cases hlong : cs < p.length
      · rw [if_pos hlong]
        refine (ih _ []).trans ?_
        rw [List.append_nil, List.flatten_append]
        have h1 := append_bufOpt_flatten_sublist out buf
        have h2 := hard_split_flatten_sublist p cs
        refine (List.Sublist.append (List.Sublist.append h1 h2)
          (List.Sublist.refl (joinSepPre sep rest))).trans ?_
        simp only [List.append_assoc]
        refine List.Sublist.append (List.Sublist.refl out.flatten) ?_
        refine List.Sublist.append (List.Sublist.refl buf) ?_
        exact List.sublist_append_right sep _
      · rw [if_neg hlong]
        refine (ih _ p).trans ?_
        have h1 := append_bufOpt_flatten_sublist out buf
        refine (List.Sublist.append (List.Sublist.append h1 (List.Sublist.refl p))
          (List.Sublist.refl (joinSepPre sep rest))).trans ?_
        simp only [List.append_assoc]
        refine List.Sublist.append (List.Sublist.refl out.flatten) ?_
        refine List.Sublist.append (List.Sublist.refl buf) ?_
        exact List.sublist_append_right sep _

theorem packParts_flatten_sublist (cs : Nat) (sep : Chars) (parts : List Chars) :
    ((packPartsGo cs sep parts [] []).flatten).Sublist (joinSep sep parts) := by
  cases parts with
  | nil => simp [packPartsGo]
  | cons p rest =>
    simp only [packPartsGo, reduceIte]
    by_cases hfit : p.length ≤ cs
    · rw [if_pos hfit]
      refine (packPartsGo_flatten_sublist cs sep rest [] p).trans ?_
      simp only [List.flatten_nil, List.nil_append]
      exact cons_joinSepPre_sublist sep p rest
    · rw [if_neg hfit, if_pos (by omega : cs < p.length)]
      refine (packPartsGo_flatten_sublist cs sep rest _ []).trans ?_
      simp only [List.append_nil, List.nil_append, List.flatten_append,
        List.flatten_nil]
      exact (List.Sublist.append (hard_split_flatten_sublist p cs)
        (List.Sublist.refl _)).trans (cons_joinSepPre_sublist sep p rest)

/-! ## Helper lemmas: `_split_long_unit` -/

theorem splitLongTry_flatten_sublist (cs : Nat) (u : Chars) (seps : List Chars) :
    ((splitLongTry cs u seps).flatten).Sublist u := by
  induction seps with
  | nil => exact hard_split_flatten_sublist u cs
  | cons sep more ih =>
    cases sep with
    | nil => exact ih
    | cons s0 srest =>
      simp only [splitLongTry]
      by_cases h1 : (cleanParts s0 srest u).length ≤ 1
      · rw [if_pos h1]; exact ih
      · rw [if_neg h1]
        by_cases h2 : packPartsGo cs (s0 :: srest) (cleanParts s0 srest u) [] [] ≠ [] ∧
            (packPartsGo cs (s0 :: srest) (cleanParts s0 srest u) [] []).all
              (fun x => x.length ≤ cs)
        · rw [if_pos h2]
          exact (packParts_flatten_sublist cs (s0 :: srest) _).trans
            (joinSep_cleanParts_sublist (s0 :: srest) s0 srest u (List.Sublist.refl _))
        · rw [if_neg h2]; exact ih

theorem split_long_unit_flatten_sublist (unit : Chars) (cs : Nat) (seps : List Chars) :
    ((split_long_unit unit cs seps).flatten).Sublist unit := by
  unfold split_long_unit
  split
  · simpa using pyStrip_sublist unit
  · exact (splitLongTry_flatten_sublist cs (pyStrip unit) seps).trans (pyStrip_sublist unit)

theorem splitLongTry_length_le (cs : Nat) (u : Chars) (seps : List Chars) :
    ∀ x ∈ splitLongTry cs u seps, x.length ≤ cs := by
  induction seps with
  | nil => exact hard_split_length_le u cs
  | cons sep more ih =>
    cases sep with
    | nil => exact ih
    | cons s0 srest =>
      intro x hx
      simp only [splitLongTry] at hx
      by_cases h1 : (cleanParts s0 srest u).length ≤ 1
      · rw [if_pos h1] at hx; exact ih x hx
      · rw [if_neg h1] at hx
        by_cases h2 : packPartsGo cs (s0 :: srest) (cleanParts s0 srest u) [] [] ≠ [] ∧
            (packPartsGo cs (s0 :: srest) (cleanParts s0 srest u) [] []).all
              (fun x => x.length ≤ cs)
        · rw [if_pos h2] at hx
          exact of_decide_eq_true (List.all_eq_true.mp h2.2 x hx)
        · rw [if_neg h2] at hx; exact ih x hx

theorem split_long_unit_length_le (unit : Chars) (cs : Nat) (seps : List Chars) :
    ∀ x ∈ split_long_unit unit cs seps, x.length ≤ cs := by
  intro x hx
  unfold split_long_unit at hx
  split at hx
  · next h =>
    rw [List.mem_singleton] at hx
    subst hx
    exact h
  · exact splitLongTry_length_le cs (pyStrip unit) seps x hx

/-! ## Helper lemmas: the packing loop of `chunk_text` -/

theorem pyStrip_nil : pyStrip [] = [] := rfl

theorem flushAppend_flatten_sublist (chunks : List Chars) (buf : Chars) :
    ((flushAppend chunks buf).flatten).Sublist (chunks.flatten ++ buf) := by
  unfold flushAppend
  rw [List.flatten_append]
  refine List.Sublist.append (List.Sublist.refl _) ?_
  split
  · exact List.nil_sublist _
  · simpa using pyStrip_sublist buf

theorem packUnitsGo_flatten_sublist (cs : Nat) (units chunks : List Chars)
    (buf : Chars) :
    ((packUnitsGo cs units chunks buf).flatten).Sublist
      ((chunks.flatten ++ buf) ++ joinSepPre ['\n'] units) := by
  induction units generalizing chunks buf with
  | nil =>
    rw [joinSepPre_nil, List.append_nil]
    exact flushAppend_flatten_sublist chunks buf
  | cons u rest ih =>
    rw [joinSepPre_cons]
    simp only [packUnitsGo]
    by_cases hskip : pyStrip u = []
    · rw [if_pos hskip]
      exact (ih chunks buf).trans (sublist_append_middle _ _ _)
    · rw [if_neg hskip]
      by_cases hgrow : buf.length + u.length + 1 ≤ cs
      · rw [if_pos hgrow]
        refine (ih chunks _).trans ?_
        by_cases hb : buf = []
        · subst hb
          rw [if_pos rfl]
          simp only [List.append_nil, List.append_assoc]
          refine List.Sublist.append (List.Sublist.refl chunks.flatten) ?_
          refine (List.Sublist.append (pyStrip_sublist u)
            (List.Sublist.refl (joinSepPre ['\n'] rest))).trans ?_
          exact List.sublist_append_right ['\n'] _
        · rw [if_neg hb]
          simp only [List.append_assoc]
          refine List.Sublist.append (List.Sublist.refl chunks.flatten) ?_
          have := List.Sublist.append (pyStrip_sublist (buf ++ '\n' :: u))
            (List.Sublist.refl (joinSepPre ['\n'] rest))
          simpa [List.append_assoc] using this
      · rw [if_neg hgrow]
        by_cases hlong : cs < u.length
        · rw [if_pos hlong]
          refine (ih _ []).trans ?_
          rw [List.append_nil, List.flatten_append]
          refine (List.Sublist.append
            (List.Sublist.append (flushAppend_flatten_sublist chunks buf)
              (split_long_unit_flatten_sublist u cs fineSeps))
            (List.Sublist.refl (joinSepPre ['\n'] rest))).trans ?_
          simp only [List.append_assoc]
          refine List.Sublist.append (List.Sublist.refl chunks.flatten) ?_
          refine List.Sublist.append (List.Sublist.refl buf) ?_
          exact List.sublist_append_right ['\n'] _
        · rw [if_neg hlong]
          refine (ih _ (pyStrip u)).trans ?_
          refine (List.Sublist.append
            (List.Sublist.append (flushAppend_flatten_sublist chunks buf)
              (pyStrip_sublist u))
            (List.Sublist.refl (joinSepPre ['\n'] rest))).trans ?_
          simp only [List.append_assoc]
          refine List.Sublist.append (List.Sublist.refl chunks.flatten) ?_
          refine List.Sublist.append (List.Sublist.refl buf) ?_
          exact List.sublist_append_right ['\n'] _

theorem packUnits_flatten_sublist (cs : Nat) (units : List Chars) :
    ((packUnitsGo cs units [] []).flatten).Sublist (joinSep ['\n'] units) := by
  induction units with
  | nil => simp [packUnitsGo, flushAppend, pyStrip_nil]
  | cons u rest ih =>
    simp only [packUnitsGo]
    by_cases hskip : pyStrip u = []
    · rw [if_pos hskip]
      exact ih.trans (joinSep_tail_sublist ['\n'] u rest)
    · rw [if_neg hskip]
      by_cases hgrow : ([] : Chars).length + u.length + 1 ≤ cs
      · rw [if_pos hgrow, if_pos trivial]
        refine (packUnitsGo_flatten_sublist cs rest [] (pyStrip u)).trans ?_
        simp only [List.flatten_nil, List.nil_append]
        exact (List.Sublist.append (pyStrip_sublist u) (List.Sublist.refl _)).trans
          (cons_joinSepPre_sublist ['\n'] u rest)
      · rw [if_neg hgrow]
        by_cases hlong : cs < u.length
        · rw [if_pos hlong]
          refine (packUnitsGo_flatten_sublist cs rest _ []).trans ?_
          have hfl : flushAppend [] [] = ([] : List Chars) := rfl
          rw [hfl, List.nil_append, List.append_nil]
          exact (List.Sublist.append (split_long_unit_flatten_sublist u cs fineSeps)
            (List.Sublist.refl _)).trans (cons_joinSepPre_sublist ['\n'] u rest)
        · rw [if_neg hlong]
          refine (packUnitsGo_flatten_sublist cs rest _ (pyStrip u)).trans ?_
          have hfl : flushAppend [] [] = ([] : List Chars) := rfl
          rw [hfl, List.flatten_nil, List.nil_append]
          exact (List.Sublist.append (pyStrip_sublist u) (List.Sublist.refl _)).trans
            (cons_joinSepPre_sublist ['\n'] u rest)

/-! ## Helper lemmas: step 1 of the chunker -/

theorem stepOneApply_joinSep_sublist (cs : Nat) (s0 : Char) (srest : Chars)
    (units : List Chars) (hg : (['\n'] : Chars).Sublist (s0 :: srest)) :
    (joinSep ['\n'] (stepOneApply cs s0 srest units)).Sublist
      (joinSep ['\n'] units) := by
  unfold stepOneApply
  refine joinSep_flatten_sublist ['\n'] _ units ?_
  intro u hu
  by_cases h : u.length ≤ cs
  · rw [if_pos h, joinSep_single]
  · rw [if_neg h]
    exact joinSep_cleanParts_sublist ['\n'] s0 srest u hg

theorem stepOne_joinSep_sublist (cs : Nat) (t : Chars) :
    (joinSep ['\n'] (stepOne cs t)).Sublist t := by
  unfold stepOne
  refine (stepOneApply_joinSep_sublist cs '\n' [] _ (List.Sublist.refl _)).trans ?_
  refine (stepOneApply_joinSep_sublist cs '\n' ['\n'] [t]
    ((List.nil_sublist ['\n']).cons₂ '\n')).trans ?_
  rw [joinSep_single]

theorem coreChunks_flatten_sublist (text : Chars) (cs : Nat) :
    ((coreChunks text cs).flatten).Sublist text := by
  unfold coreChunks
  exact ((packUnits_flatten_sublist cs _).trans
    (stepOne_joinSep_sublist cs _)).trans (pyStrip_sublist text)

/-! ## Helper lemmas: chunk length bounds -/

theorem flushAppend_length_le (cs : Nat) (chunks : List Chars) (buf : Chars)
    (hchunks : ∀ c ∈ chunks, c.length ≤ cs) (hbuf : buf.length ≤ cs) :
    ∀ c ∈ flushAppend chunks buf, c.length ≤ cs := by
  intro c hc
  unfold flushAppend at hc
  rw [List.mem_append] at hc
  rcases hc with hc | hc
  · exact hchunks c hc
  · split at hc
    · simp at hc
    · rw [List.mem_singleton] at hc
      subst hc
      exact le_trans (pyStrip_length_le buf) hbuf

theorem packUnitsGo_length_le (cs : Nat) (units chunks : List Chars) (buf : Chars)
    (hchunks : ∀ c ∈ chunks, c.length ≤ cs) (hbuf : buf.length ≤ cs) :
    ∀ c ∈ packUnitsGo cs units chunks buf, c.length ≤ cs := by
  induction units generalizing chunks buf with
  | nil =>
    intro c hc
    exact flushAppend_length_le cs chunks buf hchunks hbuf c hc
  | cons u rest ih =>
    intro c hc
    simp only [packUnitsGo] at hc
    by_cases hskip : pyStrip u = []
    · rw [if_pos hskip] at hc
      exact ih chunks buf hchunks hbuf c hc
    · rw [if_neg hskip] at hc
      by_cases hgrow : buf.length + u.length + 1 ≤ cs
      · rw [if_pos hgrow] at hc
        refine ih chunks _ hchunks ?_ c hc
        by_cases hb : buf = []
        · rw [if_pos hb]
          have := pyStrip_length_le u
          omega
        · rw [if_neg hb]
          have h1 := pyStrip_length_le (buf ++ '\n' :: u)
          rw [List.length_append, List.length_cons] at h1
          omega
      · rw [if_neg hgrow] at hc
        by_cases hlong : cs < u.length
        · rw [if_pos hlong] at hc
          refine ih _ [] ?_ (Nat.zero_le cs) c hc
          intro c' hc'
          rw [List.mem_append] at hc'
          rcases hc' with h | h
          · exact flushAppend_length_le cs chunks buf hchunks hbuf c' h
          · exact split_long_unit_length_le u cs fineSeps c' h
        · rw [if_neg hlong] at hc
          refine ih _ _ (flushAppend_length_le cs chunks buf hchunks hbuf) ?_ c hc
          have := pyStrip_length_le u
          omega

theorem coreChunks_length_le (text : Chars) (cs : Nat) :
    ∀ c ∈ coreChunks text cs, c.length ≤ cs :=
  packUnitsGo_length_le cs _ [] []
    (fun c hc => absurd hc (List.not_mem_nil c)) (Nat.zero_le cs)

theorem addOverlapGo_length_le (cs ov : Nat) (chunks acc : List Chars) (prev : Chars)
    (hchunks : ∀ c ∈ chunks, c.length ≤ cs)
    (hacc : ∀ c ∈ acc, c.length ≤ cs + ov) :
    ∀ c ∈ addOverlapGo cs ov chunks acc prev, c.length ≤ cs + ov := by
  match chunks, hchunks with
  | [], _ => exact fun c hc => hacc c hc
  | x :: rest, hchunks =>
    intro c hc
    simp only [addOverlapGo] at hc
    by_cases hp : prev = []
    · rw [if_pos hp] at hc
      refine addOverlapGo_length_le cs ov rest _ x
        (fun c' h => hchunks c' (List.mem_cons_of_mem _ h)) ?_ c hc
      intro c' h
      rw [List.mem_append] at h
      rcases h with h | h
      · exact hacc c' h
      · rw [List.mem_singleton] at h
        rw [h]
        exact le_trans (hchunks x (List.mem_cons_self _ _)) (Nat.le_add_right cs ov)
    · rw [if_neg hp] at hc
      refine addOverlapGo_length_le cs ov rest _ x
        (fun c' h => hchunks c' (List.mem_cons_of_mem _ h)) ?_ c hc
      intro c' h
      rw [List.mem_append] at h
      rcases h with h | h
      · exact hacc c' h
      · rw [List.mem_singleton] at h
        subst h
        split
        · exact takeRightN_length_le _ _
        · next hno => omega

theorem chunk_text_zero_overlap (text : Chars) (cs : Nat) :
    chunk_text text cs 0 = coreChunks text cs := by
  unfold chunk_text
  by_cases h : pyStrip text = []
  · rw [if_pos h]
    unfold coreChunks stepOne stepOneApply
    rw [h]
    simp [packUnitsGo, flushAppend, pyStrip_nil, Nat.zero_le]
  · rw [if_neg h, if_pos (Or.inl rfl)]

/-! ## Claims C6, C7, C8 -/

/-- Claim C6 counterexample: the code performs no overlap clamping.  With
`chunk_size = 2` and `chunk_overlap = 2 ≥ chunk_size`, the text
`"ab\n\nc"` produces the core chunks `["ab", "c"]`, and the prefix taken
from the previous chunk `"ab"` is the whole chunk — `2` characters, which
is *not* strictly less than `chunk_size`; the emitted second chunk
`"ab\nc"` carries the full `2`-character prefix. -/
theorem chunk_text_no_clamp_counterexample :
    coreChunks "ab\n\nc".data 2 = [['a', 'b'], ['c']] ∧
    chunk_text "ab\n\nc".data 2 2 = [['a', 'b'], ['a', 'b', '\n', 'c']] ∧
    (effectiveOverlapPfx 2 ['a', 'b']).length = 2 ∧
    ¬(effectiveOverlapPfx 2 ['a', 'b']).length < 2 := by
  decide

/-- Claim C6 (amended): the overlap step applies no clamping; the prefix of
the previous chunk carried onto the next chunk has length
`min(chunk_overlap, len(prev))`, which is at most `chunk_size` (because
every core chunk has length at most `chunk_size`) but can equal
`chunk_size` when `chunk_overlap ≥ chunk_size` — it is not always strictly
below it.  (Termination does not depend on clamping: the chunker is a
structurally terminating pipeline.) -/
theorem chunk_text_overlap_prefix_bounded (text : Chars) (cs ov : Nat)
    (_hcs : 0 < cs) :
    ∀ prev ∈ coreChunks text cs,
      (effectiveOverlapPfx ov prev).length = min ov prev.length ∧
      (effectiveOverlapPfx ov prev).length ≤ cs := by
  intro prev hprev
  have hle := coreChunks_length_le text cs prev hprev
  unfold effectiveOverlapPfx
  split
  · next h =>
    rw [takeRightN_length_eq_min]
    omega
  · next h =>
    omega

theorem chunk_text_overlap_prefix_bounded_witness :
    (effectiveOverlapPfx 5 ['a', 'b']).length = min 5 (['a', 'b'] : Chars).length ∧
    (effectiveOverlapPfx 5 ['a', 'b']).length ≤ 2 :=
  chunk_text_overlap_prefix_bounded "ab\n\nc".data 2 5 (by decide) ['a', 'b']
    (by decide)

/-- Claim C7 counterexample: concatenating the chunks of
`chunk_text("ab\n\ncd", 2, 0)` (no overlap, so the chunks are exactly the
core contents) yields `"abcd"`, not the original `"ab\n\ncd"`: the
paragraph separator characters are dropped, so exact reconstruction
fails. -/
theorem chunk_text_reconstruction_counterexample :
    chunk_text "ab\n\ncd".data 2 0 = [['a', 'b'], ['c', 'd']] ∧
    (chunk_text "ab\n\ncd".data 2 0).flatten ≠ "ab\n\ncd".data := by
  decide

/-- Claim C7 (amended): the concatenation of the core chunks (the emitted
chunks with their overlap prefixes removed — for `chunk_overlap = 0`,
exactly `chunk_text`'s output) is a *subsequence* of the original text:
characters appear in their original order and none is fabricated, but
separator characters consumed by splitting and whitespace stripped at chunk
boundaries are lost, so exact reconstruction does not hold. -/
theorem chunk_text_core_join_sublist (text : Chars) (cs : Nat) :
    ((coreChunks text cs).flatten).Sublist text ∧
    chunk_text text cs 0 = coreChunks text cs :=
  ⟨coreChunks_flatten_sublist text cs, chunk_text_zero_overlap text cs⟩

/-- Claim C8: every chunk returned by `chunk_text` has length at most
`chunk_size + chunk_overlap`: core chunks are bounded by `chunk_size`, and
the overlap step truncates every merged chunk to its last
`chunk_size + chunk_overlap` characters. -/
theorem chunk_text_length_le (text : Chars) (cs ov : Nat) (_hcs : 0 < cs) :
    ∀ c ∈ chunk_text text cs ov, c.length ≤ cs + ov := by
  intro c hc
  unfold chunk_text at hc
  split at hc
  · simp at hc
  · split at hc
    · exact le_trans (coreChunks_length_le text cs c hc) (Nat.le_add_right cs ov)
    · refine addOverlapGo_length_le cs ov _ [] [] (coreChunks_length_le text cs)
        ?_ c hc
      intro c' h
      simp at h

theorem chunk_text_length_le_witness :
    (['a', 'b'] : Chars).length ≤ 3 + 1 :=
  chunk_text_length_le "ab".data 3 1 (by decide) ['a', 'b'] (by decide)
